import Mathlib

/-!
Verification of the classification core of `phylofisher/forest.py`.

The Python source is shallowly embedded below.  Leaf identifiers are plain
strings; the Python string operations used by the source (`split`,
`count`, slicing, substring test, `int(...)`, `strip`) are modelled by
executable functions on `List Char`.  Trees are rose trees carrying an
integer support value on internal nodes; the module-level `metadata`
mapping is passed explicitly as a total function, and the contamination
dictionary as a partial map.  A Python run-time exception (KeyError on an
unguarded lookup, AttributeError from recursing past the root,
ValueError from `int`) is modelled by `Option`: `none` means the call
raises.
-/

namespace Forest

/-! ## Python string primitives -/

/-- `s.split(sep)` for a one-character separator, Python semantics:
`"".split('_') = [""]`, and separators at the ends produce empty fields. -/
def splitOnChar (sep : Char) : List Char → List (List Char)
  | [] => [[]]
  | c :: rest =>
    let r := splitOnChar sep rest
    if c = sep then [] :: r
    else
      match r with
      | [] => [[c]]
      | h :: t => (c :: h) :: t

/-- `'..' in s`: does the character list contain two consecutive dots? -/
def hasDotDot : List Char → Bool
  | '.' :: '.' :: _ => true
  | _ :: rest => hasDotDot rest
  | [] => false

/-- `s.split('..')[0]`: the prefix before the first occurrence of `".."`
(the whole string when there is none). -/
def beforeDotDot : List Char → List Char
  | '.' :: '.' :: _ => []
  | c :: rest => c :: beforeDotDot rest
  | [] => []

/-- Is `pre` a prefix of `l`? -/
def prefixOf : List Char → List Char → Bool
  | [], _ => true
  | _ :: _, [] => false
  | a :: as, b :: bs => a = b && prefixOf as bs

/-- Python `needle in hay` (substring containment). -/
def substrOf : List Char → List Char → Bool
  | needle, [] => prefixOf needle []
  | needle, c :: rest => prefixOf needle (c :: rest) || substrOf needle rest

/-- Python substring test lifted to `String`. -/
def pyIn (needle hay : String) : Bool := substrOf needle.toList hay.toList

/-- Decimal digit value of a character, if it is a digit. -/
def digitVal (c : Char) : Option Nat :=
  if '0' ≤ c ∧ c ≤ '9' then some (c.toNat - '0'.toNat) else none

/-- Accumulating decimal parser over a digit list. -/
def parseDigitsAux : List Char → Nat → Option Nat
  | [], acc => some acc
  | c :: rest, acc =>
    match digitVal c with
    | none => none
    | some d => parseDigitsAux rest (acc * 10 + d)

/-- Parse a nonempty all-digit list; `none` otherwise. -/
def parseDigits : List Char → Option Nat
  | [] => none
  | c :: rest => parseDigitsAux (c :: rest) 0

/-- Python `int(s)` restricted to an optional sign followed by digits;
`none` models the `ValueError` raised on anything else. -/
def pyInt : List Char → Option Int
  | '-' :: rest => (parseDigits rest).map (fun n => -(n : Int))
  | l => (parseDigits l).map (fun n => (n : Int))

/-- The '_'-separated fields of a leaf name, as strings. -/
def fieldsOf (s : String) : List String :=
  (splitOnChar '_' s.toList).map List.asString

/-- Number of `'_'` characters in a name (Python `name.count('_')`). -/
def uscoreCount (s : String) : Nat := s.toList.count '_'

/-- `name.split('_')[0]`: the organism code in front of the first underscore. -/
def orgOf (s : String) : String := (fieldsOf s).headD ""

/-- The organism-code stripping performed throughout `forest.py`:
`org.split('..')[0]` when the name contains `'..'`, else `org.split('_')[0]`. -/
def stripName (s : String) : String :=
  if hasDotDot s.toList then (beforeDotDot s.toList).asString else orgOf s

/-- Python `s.strip()` whitespace characters (ASCII fragment). -/
def isPySpace (c : Char) : Bool := c = ' ' ∨ c = '\t' ∨ c = '\n' ∨ c = '\r'

/-- Python `s.strip()`. -/
def pyStrip (s : String) : String :=
  (((s.toList.dropWhile isPySpace).reverse.dropWhile isPySpace).reverse).asString

/-! ## Taxon directory and contamination directory -/

/-- One record of the module-level `metadata` mapping (colors are rendering
glue and omitted). -/
structure TaxonRec where
  group : String
  subtax : String
  full : String
deriving DecidableEq

/-- The `metadata` mapping, total: every claim presumes its organisms are
present, and a missing key would be a KeyError outside the claims' scope. -/
abbrev Metadata := String → TaxonRec

/-- `cont_dict`: organism code to `(expected_keyword, rank_level)`;
`none` for organisms that are not keys. -/
abbrev ContDict := String → Option (String × String)

/-! ## Gene trees -/

/-- A rooted gene tree as handed to the classification functions after
`ete3` parsing and midpoint rerooting: rose tree, integer support on
internal nodes, a name on each leaf. -/
inductive PTree where
  | leaf (name : String)
  | node (support : Int) (children : List PTree)

/-- `node.is_leaf()`. -/
def PTree.isLeafB : PTree → Bool
  | .leaf _ => true
  | .node _ _ => false

mutual

/-- `t.traverse('preorder')`: every node of the tree, parent before
children, children left to right. -/
def preorderNodes : PTree → List PTree
  | .leaf n => [.leaf n]
  | .node s cs => .node s cs :: preorderNodesL cs

def preorderNodesL : List PTree → List PTree
  | [] => []
  | c :: cs => preorderNodes c ++ preorderNodesL cs

end

/-- `node.get_leaf_names()`: leaf names in preorder. -/
def leafNames (t : PTree) : List String :=
  (preorderNodes t).filterMap fun n =>
    match n with
    | .leaf nm => some nm
    | .node _ _ => none

/-- `len(node)` in `ete3`: the number of leaves under the node. -/
def leafCount (t : PTree) : Nat := (leafNames t).length

mutual

/-- The leaves of the tree in preorder, each paired with its chain of
strict ancestors, innermost (the leaf's `up`) first, root last.  This
materialises the `node.up` pointers the Python code follows. -/
def leavesWithChain : PTree → List PTree → List (String × List PTree)
  | .leaf n, anc => [(n, anc)]
  | .node s cs, anc => leavesWithChainL cs (PTree.node s cs :: anc)

def leavesWithChainL : List PTree → List PTree → List (String × List PTree)
  | [], _ => []
  | c :: cs, anc => leavesWithChain c anc ++ leavesWithChainL cs anc

end

/-! ## Suspicious clade detector (`suspicious_clades`) -/

/-- Group labels of a clade: each leaf name is stripped to an organism code
and looked up in the taxon directory. -/
def cladeGroups (md : Metadata) (clade : List String) : List String :=
  clade.map fun org => (md (stripName org)).group

/-- The per-node test of the first loop of `suspicious_clades`: an
internal node with support at least 70 whose clade is strictly smaller
than its complement (`tot` is the whole tree's leaf count) and has more
than one member contributes its clade. -/
def supportedClade (tot : Nat) : PTree → Option (List String)
  | .leaf _ => none
  | .node s cs =>
    if 70 ≤ s ∧ (leafCount (.node s cs) : Int) <
        (tot : Int) - (leafCount (.node s cs) : Int) then
      if 1 < (leafNames (.node s cs)).length then some (leafNames (.node s cs))
      else none
    else none

/-- `suspicious_clades` of `forest.py` on an already-rooted tree: every
non-root node in preorder (the root is the head of the preorder list)
passing the internal-node support/minority/size test, filtered down to
the clades spanning more than one group. -/
def suspicious_clades (md : Metadata) (t : PTree) : List (List String) :=
  (((preorderNodes t).drop 1).filterMap (supportedClade (leafCount t))).filter
    fun clade => 1 < ((cladeGroups md clade).dedup).length

/-! ## Candidate selector (`get_best_candidates`) -/

/-- Extract the rank of a ranked-candidate leaf name: field 3 of the
'_'-split, with its first and last character removed, parsed as an
integer (`int(rank[1:-1])`); `none` models the `ValueError`. -/
def rankOf (s : String) : Option Int :=
  pyInt ((((splitOnChar '_' s.toList).getD 3 []).drop 1).dropLast)

/-- An entry of the `top_rank` dictionary: organism code, best rank so
far, best candidate name so far. -/
abbrev BestEntry := String × Int × String

/-- Lookup in the ordered dictionary. -/
def lookupOrg : List BestEntry → String → Option (Int × String)
  | [], _ => none
  | (o, r, n) :: rest, org => if o = org then some (r, n) else lookupOrg rest org

/-- The dictionary update performed per ranked leaf: create the entry for
a fresh organism, replace it in place when the new rank is strictly
smaller. -/
def updateBest (acc : List BestEntry) (org : String) (r : Int) (n : String) :
    List BestEntry :=
  match acc with
  | [] => [(org, r, n)]
  | (o, r0, n0) :: rest =>
    if o = org then
      if r < r0 then (o, r, n) :: rest else (o, r0, n0) :: rest
    else (o, r0, n0) :: updateBest rest org r n

/-- The preorder loop of `get_best_candidates` over the leaf names:
`none` when `int(...)` raises on some ranked leaf. -/
def bestFold (acc : List BestEntry) : List String → Option (List BestEntry)
  | [] => some acc
  | n :: rest =>
    if uscoreCount n = 4 then
      match rankOf n with
      | none => none
      | some r => bestFold (updateBest acc (orgOf n) r n) rest
    else bestFold acc rest

/-- `get_best_candidates`: the set `top_seqs` of per-organism best
candidate names (insertion order of organisms). -/
def get_best_candidates (t : PTree) : Option (List String) :=
  (bestFold [] (leafNames t)).map (List.map fun e => e.2.2)

/-- The ranked candidates of one organism among a leaf-name list, in
order, as (rank, name) pairs.  Used to state what `get_best_candidates`
selects. -/
def candsOf (names : List String) (org : String) : List (Int × String) :=
  names.filterMap fun n =>
    if uscoreCount n = 4 ∧ orgOf n = org then (rankOf n).map (fun r => (r, n))
    else none

/-- Keep the better of a current best and a new candidate: replace only
on a strictly smaller rank. -/
def chooseBest : Option (Int × String) → Int × String → Option (Int × String)
  | none, p => some p
  | some (r0, n0), (r, n) => if r < r0 then some (r, n) else some (r0, n0)

/-- Fold `chooseBest` over a candidate list. -/
def foldBest (o : Option (Int × String)) (l : List (Int × String)) :
    Option (Int × String) :=
  l.foldl chooseBest o

/-- The minimum-rank candidate, first occurrence winning ties. -/
def firstMin (l : List (Int × String)) : Option (Int × String) := foldBest none l

/-! ## Neighborhood consensus classifier -/

/-- The keyword set collected at one ancestor: over the ancestor's leaf
names that are not ranked candidates (`count('_') != 4`), the group, the
sub-taxon or the stripped organism code, according to the rank level;
Python-set semantics, so duplicates collapse. -/
def collectKeywords (md : Metadata) (rank : String) (p : PTree) : List String :=
  ((leafNames p).filterMap fun org =>
    if uscoreCount org ≠ 4 then
      let org' := stripName org
      some (if rank = "group" then (md org').group
            else if rank = "subtax" then (md org').subtax
            else org')
    else none).dedup

/-- `expected_neighborhood(parent, cont_key_rank)` along the explicit
ancestor chain (first element = the starting ancestor, last = root).
`none` models an exception: the `assert` on an unknown rank level, or the
`AttributeError` raised when the empty-keyword recursion walks past the
root (`parent.up` of the root is `None`). -/
def expected_neighborhood (md : Metadata) : List PTree → String × String → Option Bool
  | [], _ => none
  | p :: rest, (key, rank) =>
    if rank = "group" ∨ rank = "subtax" ∨ rank = "org" then
      let kws := collectKeywords md rank p
      match kws with
      | [] => expected_neighborhood md rest (key, rank)
      | [kw] => some (pyIn key kw)
      | _ :: _ :: _ => some false
    else none

/-- `check_contamination(node, cont_dict)` for a leaf with ancestor chain
`chain`: unguarded dictionary lookup (`none` on a missing key models the
KeyError), then the consensus test from the leaf's parent. -/
def check_contamination (md : Metadata) (cont : ContDict)
    (name : String) (chain : List PTree) : Option Bool :=
  match cont (orgOf name) with
  | none => none
  | some kr => expected_neighborhood md chain kr

/-- The `quality` tag of a ranked leaf: its last three '_'-fields joined
by '_'. -/
def qualityOf (name : String) : String :=
  let fs := fieldsOf name
  (fs.getD (fs.length - 3) "") ++ "_" ++ (fs.getD (fs.length - 2) "") ++ "_" ++
    (fs.getD (fs.length - 1) "")

/-- The display name written to the classification table:
`f'{metadata[org]["full"]}_{quality}@{org}'`. -/
def tableName (md : Metadata) (name : String) : String :=
  (md (orgOf name)).full ++ "_" ++ qualityOf name ++ "@" ++ orgOf name

/-- Python `set.add`, modelled on lists by appending unseen elements. -/
def pySetAdd (l : List String) (x : String) : List String :=
  if x ∈ l then l else l ++ [x]

/-- The preorder loop of `collect_contaminations` over the leaves with
their ancestor chains; `none` when some contamination check raises. -/
def collectGo (md : Metadata) (cont : ContDict)
    (acc : List String × List String) :
    List (String × List PTree) → Option (List String × List String)
  | [] => some acc
  | (name, chain) :: rest =>
    if uscoreCount name = 4 then
      match cont (orgOf name) with
      | none => collectGo md cont acc rest
      | some kr =>
        match expected_neighborhood md chain kr with
        | none => none
        | some true =>
          collectGo md cont
            (pySetAdd acc.1 name, pySetAdd acc.2 (tableName md name)) rest
        | some false => collectGo md cont acc rest
    else collectGo md cont acc rest

/-- `collect_contaminations` on an already-rooted tree: the pair of the
contaminant leaf-name set and the contaminant display-name set. -/
def collect_contaminations (md : Metadata) (cont : ContDict) (t : PTree) :
    Option (List String × List String) :=
  collectGo md cont ([], []) (leavesWithChain t [])

/-! ## Redundancy reducer (`nonredundant`) -/

/-- The sort key: Python sorts the clade lists by `len` (stable). -/
def lenLe (a b : List String) : Prop := a.length ≤ b.length

instance : DecidableRel lenLe := fun a b => Nat.decLe a.length b.length

instance : IsTotal (List String) lenLe := ⟨fun a b => Nat.le_total a.length b.length⟩

instance : IsTrans (List String) lenLe := ⟨fun _ _ _ h1 h2 => Nat.le_trans h1 h2⟩

/-- `set_.issubset(other)` on the list representations. -/
def pySubset (a b : List String) : Bool := a.all fun x => x ∈ b

/-- The per-tree clade list after `sorted(clades, key=len)` and the
`set(clade)` conversions (modelled by `dedup`). -/
def sortedSets (clades : List (List String)) : List (List String) :=
  (clades.insertionSort lenLe).map List.dedup

/-- The inner loop of `nonredundant`: an element is dropped exactly when
it is a subset of some element after it. -/
def keepNonRedundant : List (List String) → List (List String)
  | [] => []
  | c :: rest =>
    if rest.any (pySubset c) then keepNonRedundant rest
    else c :: keepNonRedundant rest

/-- One tree's reduction (the `if clades:` guard kept from the source). -/
def reduceTree (clades : List (List String)) : List (List String) :=
  if clades.isEmpty then [] else keepNonRedundant (sortedSets clades)

/-- `nonredundant(result_clades)`: per-tree reduction, results
concatenated across trees in order. -/
def nonredundant (result_clades : List (List (List String))) :
    List (List String) :=
  (result_clades.map reduceTree).flatten

/-! ## Problematic aggregator (`problematic`) -/

/-- `group_perc[tax]`: the percentage share of a group among the clade's
member groups, as an exact rational.  Used in the statements; the
executable code below compares the shared-denominator counts instead,
which is the same comparison (`(c/L)*100 = 50 ↔ 2*c = L` and
`(c₁/L)*100 < (c₂/L)*100 ↔ c₁ < c₂` for `L > 0`; the Python float
division is exact at the 50% point). -/
def sharePct (taxons : List String) (tax : String) : ℚ :=
  ((taxons.count tax : ℚ) / (taxons.length : ℚ)) * 100

/-- Python `max(keys, key=group_perc.get)` with the percentage key
replaced by the equivalent count key: the first key attaining the
maximum; `none` on an empty key list (`ValueError`). -/
def pyMaxBy (f : String → Nat) : List String → Option String
  | [] => none
  | k :: rest => some (rest.foldl (fun best k' => if f best < f k' then k' else best) k)

/-- The per-clade body of `problematic`: the list of
(organism, appended label) events, in member order; the label is the
literal `"unspecified"` when the member's own group sits at exactly 50%
(`2 * count = length`), and the dominant group otherwise. -/
def cladeAppends (md : Metadata) (clade : List String) :
    Option (List (String × String)) :=
  let taxons := cladeGroups md clade
  (pyMaxBy taxons.count taxons.dedup).map fun maxPerc =>
    clade.map fun seq =>
      let org := stripName seq
      if taxons.length = 2 * taxons.count ((md org).group) then (org, "unspecified")
      else (org, maxPerc)

/-- `problematic(nonredundant_clades_)` as the ordered log of appends to
the `defaultdict(list)`; an organism's table entry is the sequence of its
labels in this log. -/
def problematic (md : Metadata) (clades : List (List String)) :
    Option (List (String × String)) :=
  match clades with
  | [] => some []
  | clade :: rest =>
    match cladeAppends md clade, problematic md rest with
    | some l, some ls => some (l ++ ls)
    | _, _ => none

/-! ## Backpropagation (`backpropagate_contamination`) -/

/-- One row of a previously written per-tree classification table. -/
structure TableRow where
  name : String
  tax : String
  status : String
deriving DecidableEq

/-- The per-line rewrite of `backpropagate_contamination`: the status is
stripped and overwritten to `'d'` when the display name is a detected
contaminant. -/
def backpropRow (contNames : List String) (r : TableRow) : TableRow :=
  let st := pyStrip r.status
  if r.name ∈ contNames then ⟨r.name, r.tax, "d"⟩ else ⟨r.name, r.tax, st⟩

/-- `backpropagate_contamination`: rewrite every row of the re-read
table. -/
def backpropagate_contamination (contNames : List String)
    (rows : List TableRow) : List TableRow :=
  rows.map (backpropRow contNames)

/-- Support value carried by a node (`node.support`; leaves never reach
the support test in `suspicious_clades`). -/
def nodeSupport : PTree → Int
  | .leaf _ => 0
  | .node s _ => s

/-! ## Concrete inputs used by witnesses and counterexamples -/

/-- Taxon directory with three groups, for small examples. -/
def exMd3 : Metadata := fun t =>
  if t = "A" then ⟨"Alpha", "Asub", "Afull"⟩
  else if t = "B" then ⟨"Beta", "Bsub", "Bfull"⟩
  else ⟨"Gamma", "Gsub", "Gfull"⟩

/-- Taxon directory for the contamination examples: organism `B` sits in
group `Beta`; the ranked organism `X` has display name `Xfull`. -/
def exMdX : Metadata := fun t =>
  if t = "B" then ⟨"Beta", "Bsub", "Bfull"⟩ else ⟨"Xgrp", "Xsub", "Xfull"⟩

/-- Contamination directory: only organism `X`, keyword `Beta` at group
level. -/
def exCont1 : ContDict := fun o =>
  if o = "X" then some ("Beta", "group") else none

/-- A rooted tree whose ranked leaf `X_hit_a_b_c` sits next to the simple
leaf `B_1` of group `Beta`. -/
def exTree1 : PTree := .node 0 [.leaf "X_hit_a_b_c", .leaf "B_1"]

/-- Contaminant leaf names that `collect_contaminations` finds on
`exTree1`. -/
def exCs1 : List String := ["X_hit_a_b_c"]

/-- Contaminant display names that `collect_contaminations` finds on
`exTree1`. -/
def exTs1 : List String := ["Xfull_a_b_c@X"]

/-- A rooted tree all of whose leaves are ranked candidates: no ancestor
ever contributes a keyword. -/
def exTree2 : PTree := .node 0 [.leaf "X_h_0_0_0", .leaf "Y_h_0_0_0"]

/-- A tree with two ranked candidates of organism `A` (ranks 1 and 0)
and one simple leaf. -/
def exT4 : PTree := .node 0 [.leaf "A_x_q_r12_t", .leaf "A_y_q_r05_t", .leaf "B_1"]

/-- One-ancestor neighborhood whose keyword set is the singleton
`{"Beta"}` under `exMd3`. -/
def exP8a : PTree := .node 0 [.leaf "B_1"]

/-- One-ancestor neighborhood whose keyword set holds the two groups
`Alpha` and `Beta` under `exMd3`. -/
def exP8b : PTree := .node 0 [.leaf "B_1", .leaf "A_1"]

/-- A previously written classification table with two rows. -/
def exRows9 : List TableRow := [⟨"n1", "G", "o"⟩, ⟨"n2", "H", "p"⟩]

end Forest

namespace Forest

/-! ## Generic helper lemmas -/

/-- Unfolding lemma for `expected_neighborhood` at a valid rank level. -/
theorem expected_neighborhood_cons (md : Metadata) (key rank : String)
    (p : PTree) (rest : List PTree)
    (hrank : rank = "group" ∨ rank = "subtax" ∨ rank = "org") :
    expected_neighborhood md (p :: rest) (key, rank) =
      match collectKeywords md rank p with
      | [] => expected_neighborhood md rest (key, rank)
      | [kw] => some (pyIn key kw)
      | _ :: _ :: _ => some false := by
  rw [expected_neighborhood, if_pos hrank]

/-! ## C8 -/

/-- C8: at any ancestor with a valid rank level, if the collected keyword
set is a singleton the consensus test returns exactly the substring test
of the expected keyword against that element, and if the keyword set has
more than one distinct element it returns false. -/
theorem c8_consensus_keyword_set (md : Metadata) (key rank : String)
    (p : PTree) (rest : List PTree)
    (hrank : rank = "group" ∨ rank = "subtax" ∨ rank = "org") :
    ((collectKeywords md rank p).length = 1 →
      expected_neighborhood md (p :: rest) (key, rank) =
        some (pyIn key ((collectKeywords md rank p).headD ""))) ∧
    (1 < (collectKeywords md rank p).length →
      expected_neighborhood md (p :: rest) (key, rank) = some false) := by
  rw [expected_neighborhood_cons md key rank p rest hrank]
  match h : collectKeywords md rank p with
  | [] => exact ⟨fun h1 => by simp at h1, fun h1 => by simp at h1⟩
  | [kw] => exact ⟨fun _ => rfl, fun h1 => by simp at h1⟩
  | a :: b :: l => exact ⟨fun h1 => by simp at h1, fun _ => rfl⟩

/-- C8 witness: on `exP8a` the keyword set is the singleton `{"Beta"}`
and the result is the substring test; on `exP8b` it is
`{"Beta", "Alpha"}` and the result is false. -/
theorem c8_witness :
    expected_neighborhood exMd3 [exP8a] ("eta", "group") =
      some (pyIn "eta" ((collectKeywords exMd3 "group" exP8a).headD "")) ∧
    expected_neighborhood exMd3 [exP8b] ("eta", "group") = some false :=
  ⟨(c8_consensus_keyword_set exMd3 "eta" "group" exP8a [] (Or.inl rfl)).1 (by decide),
   (c8_consensus_keyword_set exMd3 "eta" "group" exP8b [] (Or.inl rfl)).2 (by decide)⟩

/-! ## C2 -/

/-- C2: on a tree whose leaves are all ranked candidates the keyword set
is empty at every ancestor, and the code does not return false: the
recursion walks past the root and raises (`parent.up` of the root is
`None`), modelled by `none`; the whole contamination pass on `exTree2`
therefore raises as well. -/
theorem c2_empty_context_raises :
    expected_neighborhood exMdX [exTree2] ("Beta", "group") = none ∧
    collectKeywords exMdX "group" exTree2 = [] ∧
    collect_contaminations exMdX exCont1 exTree2 = none := by decide

/-! ## C9 -/

/-- C9: backpropagation rewrites a previously written table row by row:
no row is added or removed, a row whose display name is in the detected
contaminant set gets status `'d'`, and every other well-formed row (its
status unchanged by stripping) is reproduced unchanged. -/
theorem c9_backpropagation (contNames : List String) (rows : List TableRow)
    (h : ∀ r ∈ rows, pyStrip r.status = r.status) :
    (backpropagate_contamination contNames rows).length = rows.length ∧
    ∀ i, i < rows.length →
      (backpropagate_contamination contNames rows).getD i ⟨"", "", ""⟩ =
        (if (rows.getD i ⟨"", "", ""⟩).name ∈ contNames
         then ⟨(rows.getD i ⟨"", "", ""⟩).name, (rows.getD i ⟨"", "", ""⟩).tax, "d"⟩
         else rows.getD i ⟨"", "", ""⟩) := by
  constructor
  · simp [backpropagate_contamination]
  · intro i hi
    rw [backpropagate_contamination]
    rw [List.getD_eq_getElem _ _ (by simpa using hi), List.getD_eq_getElem _ _ hi,
      List.getElem_map]
    have hmem : rows[i] ∈ rows := List.getElem_mem hi
    by_cases hc : rows[i].name ∈ contNames
    · simp only [backpropRow, if_pos hc]
    · simp only [backpropRow, if_neg hc, h _ hmem]

/-- C9 witness: concrete two-row table, second row a detected
contaminant. -/
theorem c9_witness :
    (backpropagate_contamination ["n2"] exRows9).length = exRows9.length ∧
    ∀ i, i < exRows9.length →
      (backpropagate_contamination ["n2"] exRows9).getD i ⟨"", "", ""⟩ =
        (if (exRows9.getD i ⟨"", "", ""⟩).name ∈ ["n2"]
         then ⟨(exRows9.getD i ⟨"", "", ""⟩).name, (exRows9.getD i ⟨"", "", ""⟩).tax, "d"⟩
         else exRows9.getD i ⟨"", "", ""⟩) :=
  c9_backpropagation ["n2"] exRows9 (by decide)

end Forest

namespace Forest

/-! ## Redundancy reducer lemmas -/

/-- Positional characterization of the inner loop of `nonredundant`: an
element of the sorted list is kept exactly when it is a subset of no
element appearing after it. -/
theorem keepNonRedundant_mem (l : List (List String)) (c : List String) :
    c ∈ keepNonRedundant l ↔
      ∃ i, ∃ h : i < l.length, l.get ⟨i, h⟩ = c ∧
        ∀ d ∈ l.drop (i + 1), pySubset c d = false := by
  induction l with
  | nil => simp [keepNonRedundant]
  | cons a rest ih =>
    rw [keepNonRedundant]
    by_cases hd : rest.any (pySubset a) = true
    · rw [if_pos hd, ih]
      constructor
      · rintro ⟨i, hlt, hget, hall⟩
        refine ⟨i + 1, by simpa using hlt, by simpa using hget, ?_⟩
        intro d hdm
        exact hall d (by simpa using hdm)
      · rintro ⟨i, hlt, hget, hall⟩
        match i with
        | 0 =>
          exfalso
          obtain ⟨d, hdm, hds⟩ := List.any_eq_true.mp hd
          have hc : a = c := by simpa using hget
          have hfalse := hall d (by simpa using hdm)
          rw [← hc, hds] at hfalse
          simp at hfalse
        | i + 1 =>
          exact ⟨i, by simpa using hlt, by simpa using hget,
            fun d hdm => hall d (by simpa using hdm)⟩
    · rw [if_neg hd]
      constructor
      · intro hmem
        rcases List.mem_cons.mp hmem with rfl | hmem'
        · refine ⟨0, by simp, by simp, ?_⟩
          intro d hdm
          have hall : ∀ x ∈ rest, ¬ pySubset c x = true := by
            simpa [List.any_eq_true] using hd
          simpa using hall d (by simpa using hdm)
        · obtain ⟨i, hlt, hget, hall⟩ := ih.mp hmem'
          exact ⟨i + 1, by simpa using hlt, by simpa using hget,
            fun d hdm => hall d (by simpa using hdm)⟩
      · rintro ⟨i, hlt, hget, hall⟩
        match i with
        | 0 =>
          have hc : a = c := by simpa using hget
          exact List.mem_cons.mpr (Or.inl hc.symm)
        | i + 1 =>
          refine List.mem_cons.mpr (Or.inr (ih.mpr ⟨i, by simpa using hlt,
            by simpa using hget, fun d hdm => hall d (by simpa using hdm)⟩))

/-- `reduceTree` is the kept part of the sorted set list, also for an
empty clade list. -/
theorem reduceTree_eq (clades : List (List String)) :
    reduceTree clades = keepNonRedundant (sortedSets clades) := by
  cases clades with
  | nil => rfl
  | cons c cs => rw [reduceTree, if_neg (by simp)]

/-- The kept list is a sublist of the input. -/
theorem keepNonRedundant_sublist (l : List (List String)) :
    List.Sublist (keepNonRedundant l) l := by
  induction l with
  | nil => exact List.Sublist.refl _
  | cons a rest ih =>
    rw [keepNonRedundant]
    by_cases hd : rest.any (pySubset a) = true
    · rw [if_pos hd]
      exact ih.trans (List.sublist_cons_self a rest)
    · rw [if_neg hd]
      exact ih.cons₂ a

/-- `any` over a sublist of a list with no hit has no hit. -/
theorem any_eq_false_of_sublist {α : Type} {p : α → Bool} {k l : List α}
    (hs : List.Sublist k l) (h : l.any p = false) : k.any p = false := by
  rw [List.any_eq_false] at h ⊢
  exact fun x hx => h x (hs.subset hx)

/-- The inner loop of `nonredundant` is idempotent. -/
theorem keepNonRedundant_idem (l : List (List String)) :
    keepNonRedundant (keepNonRedundant l) = keepNonRedundant l := by
  induction l with
  | nil => rfl
  | cons a rest ih =>
    rw [keepNonRedundant]
    by_cases hd : rest.any (pySubset a) = true
    · rw [if_pos hd]
      exact ih
    · rw [if_neg hd, keepNonRedundant]
      have h2 : (keepNonRedundant rest).any (pySubset a) = false :=
        any_eq_false_of_sublist (keepNonRedundant_sublist rest) (by simpa using hd)
      rw [if_neg (by simp [h2]), ih]

/-! ## C5 -/

/-- C5: a clade is in the reduced output exactly when, inside the
size-ascending sorted clade list of one of the trees, it sits at a
position with no later clade containing it as a subset; redundancy is
only ever checked against later (hence at-least-as-large) clades of the
same tree's list, never across trees. -/
theorem c5_drop_iff_later_superset (result_clades : List (List (List String)))
    (c : List String) :
    c ∈ nonredundant result_clades ↔
      ∃ clades ∈ result_clades, ∃ i, ∃ h : i < (sortedSets clades).length,
        (sortedSets clades).get ⟨i, h⟩ = c ∧
        ∀ d ∈ (sortedSets clades).drop (i + 1), pySubset c d = false := by
  rw [nonredundant, List.mem_flatten]
  constructor
  · rintro ⟨part, hp, hc⟩
    obtain ⟨clades, hcl, rfl⟩ := List.mem_map.mp hp
    rw [reduceTree_eq] at hc
    obtain ⟨i, hlt, hget, hall⟩ := (keepNonRedundant_mem _ _).mp hc
    exact ⟨clades, hcl, i, hlt, hget, hall⟩
  · rintro ⟨clades, hcl, i, hlt, hget, hall⟩
    exact ⟨reduceTree clades, List.mem_map_of_mem _ hcl,
      (reduceTree_eq clades) ▸ (keepNonRedundant_mem _ _).mpr ⟨i, hlt, hget, hall⟩⟩

end Forest

namespace Forest

/-! ## C6 -/

/-- C6 counterexample: the reduction's output is a single flat clade list
that has lost the per-tree grouping, so re-applying the reduction to its
own output compares clades of different trees: with tree one
contributing `{a,b}` and tree two `{a,b,c}`, the first pass keeps both,
the second pass drops `{a,b}` — the set of clades differs, refuting
idempotence as claimed. -/
theorem c6_counterexample :
    ¬ (((nonredundant [nonredundant [[["a", "b"]], [["a", "b", "c"]]]]).map
          List.toFinset).toFinset =
        ((nonredundant [[["a", "b"]], [["a", "b", "c"]]]).map List.toFinset).toFinset) := by
  decide

/-- C6 (amended): restricted to a single tree's clade list with
duplicate-free clades, the reduction is idempotent: applying it to its
own output yields the very same clade list. -/
theorem c6_per_tree_idempotent (clades : List (List String))
    (h : ∀ c ∈ clades, c.Nodup) :
    nonredundant [nonredundant [clades]] = nonredundant [clades] := by
  have hflat : ∀ x : List (List String), nonredundant [x] = reduceTree x := by
    intro x
    simp [nonredundant]
  rw [hflat, hflat]
  rw [reduceTree_eq clades, reduceTree_eq _]
  have hSmem : ∀ c ∈ clades.insertionSort lenLe, c.Nodup := fun c hc =>
    h c ((List.mem_insertionSort lenLe).mp hc)
  have hsorted : sortedSets clades = clades.insertionSort lenLe := by
    rw [sortedSets]
    calc (clades.insertionSort lenLe).map List.dedup
        = (clades.insertionSort lenLe).map id :=
          List.map_congr_left fun a ha => List.dedup_eq_self.mpr (hSmem a ha)
      _ = clades.insertionSort lenLe := List.map_id _
  rw [hsorted]
  have hKsub : List.Sublist (keepNonRedundant (clades.insertionSort lenLe))
      (clades.insertionSort lenLe) := keepNonRedundant_sublist _
  have hKsorted : List.Sorted lenLe (keepNonRedundant (clades.insertionSort lenLe)) :=
    (List.sorted_insertionSort lenLe clades).sublist hKsub
  have hKD : sortedSets (keepNonRedundant (clades.insertionSort lenLe)) =
      keepNonRedundant (clades.insertionSort lenLe) := by
    rw [sortedSets, hKsorted.insertionSort_eq]
    calc (keepNonRedundant (clades.insertionSort lenLe)).map List.dedup
        = (keepNonRedundant (clades.insertionSort lenLe)).map id :=
          List.map_congr_left fun a ha =>
            List.dedup_eq_self.mpr (hSmem a (hKsub.subset ha))
      _ = keepNonRedundant (clades.insertionSort lenLe) := List.map_id _
  rw [hKD, keepNonRedundant_idem]

/-- C6 witness for the amended claim: a two-clade single-tree list with
duplicate-free clades. -/
theorem c6_witness :
    nonredundant [nonredundant [[["a", "b"], ["a", "b", "c"]]]] =
      nonredundant [[["a", "b"], ["a", "b", "c"]]] :=
  c6_per_tree_idempotent [["a", "b"], ["a", "b", "c"]] (by decide)

end Forest

namespace Forest

/-! ## C3 -/

/-- The per-node test succeeds exactly on internal nodes passing all of
support, strict-minority and size conditions. -/
theorem supportedClade_eq_some (tot : Nat) (n : PTree) (clade : List String) :
    supportedClade tot n = some clade ↔
      n.isLeafB = false ∧ leafNames n = clade ∧ 70 ≤ nodeSupport n ∧
        (leafCount n : Int) < (tot : Int) - (leafCount n : Int) ∧
        1 < clade.length := by
  match n with
  | PTree.leaf nm =>
    simp [supportedClade, PTree.isLeafB]
  | PTree.node s cs =>
    rw [supportedClade]
    by_cases h1 : 70 ≤ s ∧ (leafCount (.node s cs) : Int) <
        (tot : Int) - (leafCount (.node s cs) : Int)
    · rw [if_pos h1]
      by_cases h2 : 1 < (leafNames (.node s cs)).length
      · rw [if_pos h2]
        constructor
        · rintro h3
          have hc : leafNames (PTree.node s cs) = clade := by
            simpa using h3
          exact ⟨rfl, hc, by simpa [nodeSupport] using h1.1, by simpa using h1.2,
            hc ▸ h2⟩
        · rintro ⟨-, hc, -, -, -⟩
          rw [hc]
      · rw [if_neg h2]
        constructor
        · rintro h3
          simp at h3
        · rintro ⟨-, hc, -, -, hlen⟩
          exact absurd (hc ▸ hlen) h2
    · rw [if_neg h1]
      constructor
      · rintro h3
        simp at h3
      · rintro ⟨-, hc, hsup, hmin, -⟩
        exact absurd ⟨by simpa [nodeSupport] using hsup, by simpa using hmin⟩ h1

/-- C3: a clade is reported by the suspicious-clade detector exactly when
some non-root internal node of the rooted tree carries it and satisfies
all four conditions: support at least 70, leaf count strictly smaller
than the complement's, more than one member, and more than one distinct
taxonomic group among the members after organism-code stripping. -/
theorem c3_suspicious_iff (md : Metadata) (t : PTree) (clade : List String) :
    clade ∈ suspicious_clades md t ↔
      ∃ n ∈ (preorderNodes t).drop 1, n.isLeafB = false ∧ leafNames n = clade ∧
        70 ≤ nodeSupport n ∧
        (leafCount n : Int) < (leafCount t : Int) - (leafCount n : Int) ∧
        1 < clade.length ∧ 1 < ((cladeGroups md clade).dedup).length := by
  rw [suspicious_clades, List.mem_filter, List.mem_filterMap]
  constructor
  · rintro ⟨⟨n, hn, hsome⟩, hgr⟩
    obtain ⟨hleaf, hc, hsup, hmin, hlen⟩ := (supportedClade_eq_some _ _ _).mp hsome
    exact ⟨n, hn, hleaf, hc, hsup, hmin, hlen, by simpa using hgr⟩
  · rintro ⟨n, hn, hleaf, hc, hsup, hmin, hlen, hgr⟩
    exact ⟨⟨n, hn, (supportedClade_eq_some _ _ _).mpr ⟨hleaf, hc, hsup, hmin, hlen⟩⟩,
      by simpa using hgr⟩

end Forest

namespace Forest

/-! ## C7 -/

/-- The running maximum kept by `pyMaxBy`: the fold result is the seed or
a list member, and its key dominates the seed's and every member's. -/
theorem foldMax_spec (f : String → Nat) (l : List String) (b : String) :
    (l.foldl (fun best k' => if f best < f k' then k' else best) b = b ∨
      l.foldl (fun best k' => if f best < f k' then k' else best) b ∈ l) ∧
    f b ≤ f (l.foldl (fun best k' => if f best < f k' then k' else best) b) ∧
    ∀ x ∈ l, f x ≤ f (l.foldl (fun best k' => if f best < f k' then k' else best) b) := by
  induction l generalizing b with
  | nil => exact ⟨Or.inl rfl, le_refl _, by simp⟩
  | cons k l ih =>
    rw [List.foldl_cons]
    obtain ⟨hmem, hle, hall⟩ := ih (if f b < f k then k else b)
    have hb : f b ≤ f (if f b < f k then k else b) := by
      by_cases hc : f b < f k
      · rw [if_pos hc]
        exact le_of_lt hc
      · rw [if_neg hc]
    have hk : f k ≤ f (if f b < f k then k else b) := by
      by_cases hc : f b < f k
      · rw [if_pos hc]
      · rw [if_neg hc]
        exact le_of_not_lt hc
    refine ⟨?_, le_trans hb hle, ?_⟩
    · rcases hmem with h | h
      · rw [h]
        by_cases hc : f b < f k
        · rw [if_pos hc]
          exact Or.inr (List.mem_cons_self k l)
        · rw [if_neg hc]
          exact Or.inl rfl
      · exact Or.inr (List.mem_cons_of_mem k h)
    · intro x hx
      rcases List.mem_cons.mp hx with rfl | hx'
      · exact le_trans hk hle
      · exact hall x hx'

/-- `pyMaxBy` returns a member whose key is maximal. -/
theorem pyMaxBy_spec (f : String → Nat) (l : List String) (k : String)
    (h : pyMaxBy f l = some k) : k ∈ l ∧ ∀ x ∈ l, f x ≤ f k := by
  match l with
  | [] => simp [pyMaxBy] at h
  | a :: rest =>
    rw [pyMaxBy, Option.some.injEq] at h
    obtain ⟨hmem, hle, hall⟩ := foldMax_spec f rest a
    rw [h] at hmem hle hall
    constructor
    · rcases hmem with h' | h'
      · rw [h']
        exact List.mem_cons_self a rest
      · exact List.mem_cons_of_mem a h'
    · intro x hx
      rcases List.mem_cons.mp hx with rfl | hx'
      · exact hle
      · exact hall x hx'

/-- The Python float test `group_perc[g] == 50` in exact arithmetic: the
percentage share is exactly 50 iff the member count is half the total. -/
theorem sharePct_eq_50_iff (taxons : List String) (h : taxons ≠ [])
    (tax : String) :
    sharePct taxons tax = 50 ↔ taxons.length = 2 * taxons.count tax := by
  have hL : (0 : ℚ) < (taxons.length : ℚ) := by
    have h0 : 0 < taxons.length := List.length_pos.mpr h
    exact_mod_cast h0
  rw [sharePct, div_mul_eq_mul_div, div_eq_iff (ne_of_gt hL)]
  constructor
  · intro hq
    have h1 : (taxons.count tax * 100 : ℚ) = 50 * taxons.length := by
      exact_mod_cast hq
    have h2 : taxons.count tax * 100 = 50 * taxons.length := by
      exact_mod_cast h1
    omega
  · intro hq
    have h2 : taxons.count tax * 100 = 50 * taxons.length := by omega
    exact_mod_cast h2

/-- Percentage shares over a common nonempty denominator compare exactly
as the counts do. -/
theorem sharePct_le_iff (taxons : List String) (h : taxons ≠ [])
    (t1 t2 : String) :
    sharePct taxons t1 ≤ sharePct taxons t2 ↔
      taxons.count t1 ≤ taxons.count t2 := by
  have hL : (0 : ℚ) < (taxons.length : ℚ) := by
    have h0 : 0 < taxons.length := List.length_pos.mpr h
    exact_mod_cast h0
  rw [sharePct, sharePct, mul_le_mul_right (by norm_num : (0 : ℚ) < 100),
    div_le_div_iff_of_pos_right hL]
  exact Nat.cast_le

/-- Every clade processed by `problematic` has its append list inside the
output log. -/
theorem problematic_parts (md : Metadata) :
    ∀ clades out, problematic md clades = some out →
      ∀ clade ∈ clades, ∃ l, cladeAppends md clade = some l ∧ ∀ q ∈ l, q ∈ out := by
  intro clades
  induction clades with
  | nil =>
    intro out h clade hc
    simp at hc
  | cons c rest ih =>
    intro out h clade hc
    rw [problematic] at h
    cases hl : cladeAppends md c with
    | none =>
      rw [hl] at h
      simp at h
    | some l =>
      cases hr : problematic md rest with
      | none =>
        rw [hl, hr] at h
        simp at h
      | some ls =>
        rw [hl, hr, Option.some.injEq] at h
        rcases List.mem_cons.mp hc with rfl | hc'
        · exact ⟨l, hl, fun q hq => h ▸ List.mem_append_left _ hq⟩
        · obtain ⟨l', hl', hsub⟩ := ih ls hr clade hc'
          exact ⟨l', hl', fun q hq => h ▸ List.mem_append_right _ (hsub q hq)⟩

/-- C7: for every clade the aggregator processes, there is a dominant
group `domG` — a represented group whose percentage share is maximal —
and the appended label of each member is the literal `"unspecified"` when
the member's own group's share is exactly 50%, and `domG` otherwise;
each such (organism, label) pair lands in the output log.  A clade split
exactly 50/50 between two groups therefore gives every member
`"unspecified"`. -/
theorem c7_dominant_or_unspecified (md : Metadata) (clades : List (List String))
    (out : List (String × String)) (h : problematic md clades = some out) :
    ∀ clade ∈ clades, ∃ domG,
      domG ∈ cladeGroups md clade ∧
      (∀ tax ∈ cladeGroups md clade,
        sharePct (cladeGroups md clade) tax ≤ sharePct (cladeGroups md clade) domG) ∧
      cladeAppends md clade = some (clade.map fun seq =>
        if sharePct (cladeGroups md clade) ((md (stripName seq)).group) = 50
        then (stripName seq, "unspecified") else (stripName seq, domG)) ∧
      ∀ seq ∈ clade,
        (if sharePct (cladeGroups md clade) ((md (stripName seq)).group) = 50
         then (stripName seq, "unspecified") else (stripName seq, domG)) ∈ out := by
  intro clade hc
  obtain ⟨l, hl, hsub⟩ := problematic_parts md clades out h clade hc
  have hl' := hl
  simp only [cladeAppends] at hl'
  obtain ⟨domG, hmax, hmap⟩ := Option.map_eq_some'.mp hl'
  have htn : cladeGroups md clade ≠ [] := by
    intro h0
    rw [h0] at hmax
    simp [pyMaxBy] at hmax
  obtain ⟨hdmem, hdmax⟩ := pyMaxBy_spec _ _ _ hmax
  have hcong : ∀ seq ∈ clade,
      (if (cladeGroups md clade).length =
          2 * (cladeGroups md clade).count ((md (stripName seq)).group)
       then (stripName seq, "unspecified") else (stripName seq, domG)) =
      (if sharePct (cladeGroups md clade) ((md (stripName seq)).group) = 50
       then (stripName seq, "unspecified") else (stripName seq, domG)) := by
    intro seq hseq
    exact if_congr (sharePct_eq_50_iff _ htn _).symm rfl rfl
  refine ⟨domG, List.mem_dedup.mp hdmem, ?_, ?_, ?_⟩
  · intro tax htax
    rw [sharePct_le_iff _ htn]
    exact hdmax tax (List.mem_dedup.mpr htax)
  · rw [hl, Option.some.injEq, ← hmap]
    exact List.map_congr_left hcong
  · intro seq hseq
    apply hsub
    rw [← hmap, ← hcong seq hseq]
    exact List.mem_map_of_mem _ hseq

/-- C7 witness: the clade `{A_1, B_1}` splits 50/50 between `Alpha` and
`Beta`; both members receive `"unspecified"`. -/
theorem c7_witness :
    ∃ domG,
      domG ∈ cladeGroups exMd3 ["A_1", "B_1"] ∧
      (∀ tax ∈ cladeGroups exMd3 ["A_1", "B_1"],
        sharePct (cladeGroups exMd3 ["A_1", "B_1"]) tax ≤
          sharePct (cladeGroups exMd3 ["A_1", "B_1"]) domG) ∧
      cladeAppends exMd3 ["A_1", "B_1"] = some (["A_1", "B_1"].map fun seq =>
        if sharePct (cladeGroups exMd3 ["A_1", "B_1"]) ((exMd3 (stripName seq)).group) = 50
        then (stripName seq, "unspecified") else (stripName seq, domG)) ∧
      ∀ seq ∈ ["A_1", "B_1"],
        (if sharePct (cladeGroups exMd3 ["A_1", "B_1"]) ((exMd3 (stripName seq)).group) = 50
         then (stripName seq, "unspecified") else (stripName seq, domG)) ∈
          [("A", "unspecified"), ("B", "unspecified")] :=
  c7_dominant_or_unspecified exMd3 [["A_1", "B_1"]]
    [("A", "unspecified"), ("B", "unspecified")] (by decide) ["A_1", "B_1"]
    (List.mem_singleton.mpr rfl)

end Forest

namespace Forest

/-! ## C1 and C10: the contamination pass -/

/-- Membership in the Python-set model. -/
theorem mem_pySetAdd (l : List String) (y x : String) :
    x ∈ pySetAdd l y ↔ x ∈ l ∨ x = y := by
  rw [pySetAdd]
  by_cases h : y ∈ l
  · rw [if_pos h]
    constructor
    · exact Or.inl
    · rintro (hx | rfl)
      · exact hx
      · exact h
  · rw [if_neg h]
    simp

/-- Characterization of the contamination loop: a name ends up in the
contaminant set exactly when it was there initially or some processed
leaf occurrence of it is a ranked candidate whose organism is a
contamination-directory key and whose consensus test returns true. -/
theorem collectGo_mem (md : Metadata) (cont : ContDict) :
    ∀ (items : List (String × List PTree)) (acc : List String × List String)
      (cs ts : List String),
      collectGo md cont acc items = some (cs, ts) →
      ∀ name, (name ∈ cs ↔ name ∈ acc.1 ∨
        ∃ chain kr, (name, chain) ∈ items ∧ uscoreCount name = 4 ∧
          cont (orgOf name) = some kr ∧
          expected_neighborhood md chain kr = some true) := by
  intro items
  induction items with
  | nil =>
    intro acc cs ts h name
    simp only [collectGo, Option.some.injEq] at h
    subst h
    simp
  | cons item rest ih =>
    obtain ⟨nm, ch⟩ := item
    intro acc cs ts h name
    rw [collectGo] at h
    by_cases h4 : uscoreCount nm = 4
    · rw [if_pos h4] at h
      cases hck : cont (orgOf nm) with
      | none =>
        simp only [hck] at h
        rw [ih acc cs ts h name]
        apply or_congr_right
        constructor
        · rintro ⟨chain, kr, hmem, hc4, hkr, hexp⟩
          exact ⟨chain, kr, List.mem_cons_of_mem _ hmem, hc4, hkr, hexp⟩
        · rintro ⟨chain, kr, hmem, hc4, hkr, hexp⟩
          rcases List.mem_cons.mp hmem with heq | hmem'
          · obtain ⟨rfl, rfl⟩ := Prod.mk.injEq .. ▸ heq
            rw [hck] at hkr
            exact absurd hkr (by simp)
          · exact ⟨chain, kr, hmem', hc4, hkr, hexp⟩
      | some kr0 =>
        simp only [hck] at h
        cases hexp0 : expected_neighborhood md ch kr0 with
        | none =>
          simp only [hexp0] at h
          exact absurd h (by simp)
        | some b =>
          simp only [hexp0] at h
          cases b with
          | true =>
            rw [ih _ cs ts h name]
            have hfst : (pySetAdd acc.1 nm, pySetAdd acc.2 (tableName md nm)).1 =
                pySetAdd acc.1 nm := rfl
            rw [hfst, mem_pySetAdd]
            constructor
            · rintro ((hacc | rfl) | ⟨chain, kr, hmem, hc4, hkr, hexp⟩)
              · exact Or.inl hacc
              · exact Or.inr ⟨ch, kr0, List.mem_cons_self _ _, h4, hck, hexp0⟩
              · exact Or.inr ⟨chain, kr, List.mem_cons_of_mem _ hmem, hc4, hkr, hexp⟩
            · rintro (hacc | ⟨chain, kr, hmem, hc4, hkr, hexp⟩)
              · exact Or.inl (Or.inl hacc)
              · rcases List.mem_cons.mp hmem with heq | hmem'
                · have hn : name = nm := congrArg Prod.fst heq
                  exact Or.inl (Or.inr hn)
                · exact Or.inr ⟨chain, kr, hmem', hc4, hkr, hexp⟩
          | false =>
            rw [ih acc cs ts h name]
            apply or_congr_right
            constructor
            · rintro ⟨chain, kr, hmem, hc4, hkr, hexp⟩
              exact ⟨chain, kr, List.mem_cons_of_mem _ hmem, hc4, hkr, hexp⟩
            · rintro ⟨chain, kr, hmem, hc4, hkr, hexp⟩
              rcases List.mem_cons.mp hmem with heq | hmem'
              · have hn : name = nm := congrArg Prod.fst heq
                have hch : chain = ch := congrArg Prod.snd heq
                rw [hn, hck] at hkr
                have hkr0 : kr = kr0 := by
                  injection hkr with h'
                  exact h'.symm
                rw [hch, hkr0, hexp0] at hexp
                exact absurd hexp (by simp)
              · exact ⟨chain, kr, hmem', hc4, hkr, hexp⟩
    · rw [if_neg h4] at h
      rw [ih acc cs ts h name]
      apply or_congr_right
      constructor
      · rintro ⟨chain, kr, hmem, hc4, hkr, hexp⟩
        exact ⟨chain, kr, List.mem_cons_of_mem _ hmem, hc4, hkr, hexp⟩
      · rintro ⟨chain, kr, hmem, hc4, hkr, hexp⟩
        rcases List.mem_cons.mp hmem with heq | hmem'
        · have hn : name = nm := congrArg Prod.fst heq
          rw [hn] at hc4
          exact absurd hc4 h4
        · exact ⟨chain, kr, hmem', hc4, hkr, hexp⟩

/-- C1 counterexample: on `exTree1`, organism `X` is a
contamination-directory key, the consensus test from the leaf's parent
returns true (the neighborhood keyword is `Beta` and the directory
keyword `Beta` is a substring of it), and the leaf IS classified
contaminant — so "contaminant iff the test returns false" is wrong on
the code. -/
theorem c1_counterexample :
    collect_contaminations exMdX exCont1 exTree1 = some (exCs1, exTs1) ∧
    ¬ (("X_hit_a_b_c" ∈ exCs1) ↔
        ((exCont1 (orgOf "X_hit_a_b_c")).isSome ∧
         expected_neighborhood exMdX [exTree1] ("Beta", "group") = some false)) := by
  constructor
  · decide
  · decide

/-- C1 (amended): a leaf name is in the contamination set of the pass
exactly when some processed occurrence of it is a ranked-candidate leaf
whose organism is a key of the contamination directory and whose
neighborhood consensus test, started from the leaf's parent, returns
TRUE. -/
theorem c1_contaminant_iff_test_true (md : Metadata) (cont : ContDict)
    (t : PTree) (cs ts : List String)
    (h : collect_contaminations md cont t = some (cs, ts)) (name : String) :
    name ∈ cs ↔ ∃ chain kr, (name, chain) ∈ leavesWithChain t [] ∧
      uscoreCount name = 4 ∧ cont (orgOf name) = some kr ∧
      expected_neighborhood md chain kr = some true := by
  have hgo := collectGo_mem md cont (leavesWithChain t []) ([], []) cs ts h name
  simpa using hgo

/-- C1 witness: the contaminant of `exTree1` is found through the
amended rule. -/
theorem c1_witness : "X_hit_a_b_c" ∈ exCs1 :=
  (c1_contaminant_iff_test_true exMdX exCont1 exTree1 exCs1 exTs1 (by decide)
      "X_hit_a_b_c").mpr
    ⟨[exTree1], ("Beta", "group"),
      by simp [exTree1, leavesWithChain, leavesWithChainL],
      by decide, by decide, by decide⟩

/-- C10: every name in the contamination set of the pass has exactly four
underscores (a ranked-candidate identifier) and its organism code is a
key of the contamination directory; in particular the unguarded
`cont_dict[org]` lookup inside `check_contamination` is reached only
for keys, so it can never fail. -/
theorem c10_contaminant_invariant (md : Metadata) (cont : ContDict)
    (t : PTree) (cs ts : List String)
    (h : collect_contaminations md cont t = some (cs, ts)) :
    ∀ name ∈ cs, uscoreCount name = 4 ∧ (cont (orgOf name)).isSome := by
  intro name hname
  rw [collectGo_mem md cont (leavesWithChain t []) ([], []) cs ts h name] at hname
  rcases hname with h0 | ⟨chain, kr, hmem, h4, hkr, hexp⟩
  · simp at h0
  · refine ⟨h4, ?_⟩
    rw [hkr]
    rfl

/-- C10 witness: the found contaminant of `exTree1` satisfies the
invariant. -/
theorem c10_witness :
    uscoreCount "X_hit_a_b_c" = 4 ∧ (exCont1 (orgOf "X_hit_a_b_c")).isSome :=
  c10_contaminant_invariant exMdX exCont1 exTree1 exCs1 exTs1 (by decide)
    "X_hit_a_b_c" (by decide)

end Forest

namespace Forest

/-! ## C4: the candidate selector -/

/-- One fold step of `foldBest`. -/
theorem foldBest_cons (o : Option (Int × String)) (p : Int × String)
    (l : List (Int × String)) :
    foldBest o (p :: l) = foldBest (chooseBest o p) l := rfl

/-- Looking up the updated organism returns the better of the old entry
and the new candidate. -/
theorem lookup_updateBest_self (acc : List BestEntry) (org : String)
    (r : Int) (n : String) :
    lookupOrg (updateBest acc org r n) org = chooseBest (lookupOrg acc org) (r, n) := by
  induction acc with
  | nil => simp [updateBest, lookupOrg, chooseBest]
  | cons a rest ih =>
    obtain ⟨o, r0, n0⟩ := a
    by_cases ho : o = org
    · by_cases hr : r < r0
      · simp [updateBest, lookupOrg, ho, hr, chooseBest]
      · simp [updateBest, lookupOrg, ho, hr, chooseBest]
    · simp only [updateBest, if_neg ho, lookupOrg]
      exact ih

/-- Updating one organism leaves the other lookups unchanged. -/
theorem lookup_updateBest_other (acc : List BestEntry) (org org' : String)
    (r : Int) (n : String) (h : org' ≠ org) :
    lookupOrg (updateBest acc org r n) org' = lookupOrg acc org' := by
  induction acc with
  | nil => simp [updateBest, lookupOrg, Ne.symm h]
  | cons a rest ih =>
    obtain ⟨o, r0, n0⟩ := a
    by_cases ho : o = org
    · have ho' : ¬ o = org' := fun he => h (he ▸ ho)
      by_cases hr : r < r0
      · simp only [updateBest, if_pos ho, if_pos hr, lookupOrg]
        rw [if_neg ho', if_neg ho']
      · simp only [updateBest, if_pos ho, if_neg hr, lookupOrg]
    · simp only [updateBest, if_neg ho, lookupOrg]
      by_cases ho' : o = org'
      · rw [if_pos ho', if_pos ho']
      · rw [if_neg ho', if_neg ho']
        exact ih

/-- A ranked leaf heading the list contributes its (rank, name) pair to
its organism's candidate list. -/
theorem candsOf_cons_hit (n : String) (rest : List String) (org : String)
    (r : Int) (h4 : uscoreCount n = 4) (horg : orgOf n = org)
    (hrk : rankOf n = some r) :
    candsOf (n :: rest) org = (r, n) :: candsOf rest org := by
  simp only [candsOf, List.filterMap_cons]
  rw [if_pos ⟨h4, horg⟩, hrk]
  rfl

/-- Any other leaf heading the list leaves the candidate list unchanged. -/
theorem candsOf_cons_skip (n : String) (rest : List String) (org : String)
    (h : ¬ (uscoreCount n = 4 ∧ orgOf n = org)) :
    candsOf (n :: rest) org = candsOf rest org := by
  simp only [candsOf, List.filterMap_cons]
  rw [if_neg h]

/-- The dictionary built by the preorder loop holds, per organism,
exactly the running best of that organism's candidate list. -/
theorem bestFold_lookup :
    ∀ (names : List String) (acc out : List BestEntry),
      bestFold acc names = some out → ∀ org,
        lookupOrg out org = foldBest (lookupOrg acc org) (candsOf names org) := by
  intro names
  induction names with
  | nil =>
    intro acc out h org
    simp only [bestFold, Option.some.injEq] at h
    subst h
    rfl
  | cons n rest ih =>
    intro acc out h org
    rw [bestFold] at h
    by_cases h4 : uscoreCount n = 4
    · rw [if_pos h4] at h
      cases hrk : rankOf n with
      | none =>
        simp only [hrk] at h
        exact absurd h (by simp)
      | some r =>
        simp only [hrk] at h
        rw [ih _ _ h org]
        by_cases horg : orgOf n = org
        · rw [candsOf_cons_hit n rest org r h4 horg hrk, foldBest_cons, ← horg,
            lookup_updateBest_self]
        · rw [candsOf_cons_skip n rest org (fun hand => horg hand.2),
            lookup_updateBest_other acc (orgOf n) org r n (fun he => horg he.symm)]
    · rw [if_neg h4] at h
      rw [ih _ _ h org, candsOf_cons_skip n rest org (fun hand => h4 hand.1)]

/-- Every entry the update produces satisfies a property holding for the
old entries and the new candidate. -/
theorem updateBest_forall {P : BestEntry → Prop} (acc : List BestEntry)
    (org : String) (r : Int) (n : String)
    (hacc : ∀ e ∈ acc, P e) (hnew : P (org, r, n)) :
    ∀ e ∈ updateBest acc org r n, P e := by
  induction acc with
  | nil =>
    intro e he
    rw [updateBest] at he
    rcases List.mem_singleton.mp he with rfl
    exact hnew
  | cons a rest ih =>
    obtain ⟨o, r0, n0⟩ := a
    rw [updateBest]
    by_cases ho : o = org
    · by_cases hr : r < r0
      · rw [if_pos ho, if_pos hr]
        intro e he
        rcases List.mem_cons.mp he with rfl | he'
        · rw [ho]
          exact hnew
        · exact hacc _ (List.mem_cons_of_mem _ he')
      · rw [if_pos ho, if_neg hr]
        intro e he
        rcases List.mem_cons.mp he with rfl | he'
        · exact hacc _ (List.mem_cons_self _ _)
        · exact hacc _ (List.mem_cons_of_mem _ he')
    · rw [if_neg ho]
      intro e he
      rcases List.mem_cons.mp he with rfl | he'
      · exact hacc _ (List.mem_cons_self _ _)
      · exact ih (fun e' he' => hacc e' (List.mem_cons_of_mem _ he')) e he'

/-- Every entry of the final dictionary names a candidate of its own key
organism. -/
theorem bestFold_wf :
    ∀ (names : List String) (acc out : List BestEntry),
      bestFold acc names = some out →
      (∀ e ∈ acc, orgOf e.2.2 = e.1) → ∀ e ∈ out, orgOf e.2.2 = e.1 := by
  intro names
  induction names with
  | nil =>
    intro acc out h hacc
    simp only [bestFold, Option.some.injEq] at h
    subst h
    exact hacc
  | cons n rest ih =>
    intro acc out h hacc
    rw [bestFold] at h
    by_cases h4 : uscoreCount n = 4
    · rw [if_pos h4] at h
      cases hrk : rankOf n with
      | none =>
        simp only [hrk] at h
        exact absurd h (by simp)
      | some r =>
        simp only [hrk] at h
        exact ih _ _ h (updateBest_forall acc (orgOf n) r n hacc rfl)
    · rw [if_neg h4] at h
      exact ih _ _ h hacc

/-- The update keeps the key list, appending the organism only when it is
new. -/
theorem updateBest_keys (acc : List BestEntry) (org : String) (r : Int)
    (n : String) :
    (updateBest acc org r n).map (fun e => e.1) =
      if org ∈ acc.map (fun e => e.1) then acc.map (fun e => e.1)
      else acc.map (fun e => e.1) ++ [org] := by
  induction acc with
  | nil => simp [updateBest]
  | cons a rest ih =>
    obtain ⟨o, r0, n0⟩ := a
    rw [updateBest]
    by_cases ho : o = org
    · by_cases hr : r < r0
      · rw [if_pos ho, if_pos hr]
        simp [ho]
      · rw [if_pos ho, if_neg hr]
        simp [ho]
    · rw [if_neg ho]
      by_cases hm : org ∈ rest.map (fun e => e.1)
      · rw [List.map_cons, ih, if_pos hm, List.map_cons,
          if_pos (List.mem_cons_of_mem _ hm)]
      · have hno : org ∉ ((o, r0, n0).1 :: rest.map (fun e => e.1)) := by
          intro hmem
          rcases List.mem_cons.mp hmem with he | hm'
          · exact ho he.symm
          · exact hm hm'
        rw [List.map_cons, ih, if_neg hm, List.map_cons, if_neg hno]
        simp

/-- The dictionary's keys stay duplicate-free. -/
theorem bestFold_keys_nodup :
    ∀ (names : List String) (acc out : List BestEntry),
      bestFold acc names = some out →
      (acc.map (fun e => e.1)).Nodup → (out.map (fun e => e.1)).Nodup := by
  intro names
  induction names with
  | nil =>
    intro acc out h hacc
    simp only [bestFold, Option.some.injEq] at h
    subst h
    exact hacc
  | cons n rest ih =>
    intro acc out h hacc
    rw [bestFold] at h
    by_cases h4 : uscoreCount n = 4
    · rw [if_pos h4] at h
      cases hrk : rankOf n with
      | none =>
        simp only [hrk] at h
        exact absurd h (by simp)
      | some r =>
        simp only [hrk] at h
        refine ih _ _ h ?_
        rw [updateBest_keys]
        by_cases hm : orgOf n ∈ acc.map (fun e => e.1)
        · rw [if_pos hm]
          exact hacc
        · rw [if_neg hm]
          simp [List.nodup_append, hacc, hm]
    · rw [if_neg h4] at h
      exact ih _ _ h hacc

end Forest

namespace Forest

/-- Filtering the dictionary by a key with duplicate-free keys gives the
looked-up entry, or nothing. -/
theorem filter_key_eq_lookup (out : List BestEntry) (org : String)
    (hnd : (out.map (fun e => e.1)).Nodup) :
    out.filter (fun e => e.1 == org) =
      (match lookupOrg out org with
       | none => []
       | some (r, n) => [(org, r, n)]) := by
  induction out with
  | nil => rfl
  | cons a rest ih =>
    obtain ⟨o, r0, n0⟩ := a
    rw [List.filter_cons, lookupOrg]
    by_cases ho : o = org
    · rw [if_pos ho]
      have hcond : ((o, r0, n0).1 == org) = true := by
        simp [ho]
      rw [if_pos hcond]
      have hnotin : org ∉ rest.map (fun e => e.1) := by
        have hnd' : (o :: rest.map (fun e => e.1)).Nodup := by simpa using hnd
        have h1 := (List.nodup_cons.mp hnd').1
        rwa [ho] at h1
      have hnil : rest.filter (fun e => e.1 == org) = [] := by
        rw [List.filter_eq_nil_iff]
        intro e he
        simp only [beq_iff_eq]
        intro hek
        exact hnotin (hek ▸ List.mem_map_of_mem (fun e => e.1) he)
      rw [hnil, ho]
    · rw [if_neg ho]
      have hcond : ((o, r0, n0).1 == org) = false := by
        simp [ho]
      have hnd' : (o :: rest.map (fun e => e.1)).Nodup := by simpa using hnd
      rw [if_neg (by simp [hcond]), ih hnd'.of_cons]

/-- Filtering the selected names by organism is filtering the dictionary
by key. -/
theorem filter_map_orgs (out : List BestEntry) (org : String)
    (hwf : ∀ e ∈ out, orgOf e.2.2 = e.1) :
    (out.map (fun e => e.2.2)).filter (fun nm => orgOf nm == org) =
      (out.filter (fun e => e.1 == org)).map (fun e => e.2.2) := by
  induction out with
  | nil => rfl
  | cons a rest ih =>
    have ha : orgOf a.2.2 = a.1 := hwf a (List.mem_cons_self _ _)
    have hrest := ih fun e he => hwf e (List.mem_cons_of_mem _ he)
    rw [List.map_cons, List.filter_cons, List.filter_cons, ha]
    cases hk : (a.1 == org) with
    | true => rw [if_pos (by simp [hk]), if_pos (by simp [hk]), List.map_cons, hrest]
    | false => rw [if_neg (by simp [hk]), if_neg (by simp [hk]), hrest]

/-- Decomposition of the running-best fold: the result is the seed and
nothing beats it, or the first strictly better element, with everything
before it strictly worse-ranked and everything after it no better. -/
theorem foldBest_decomp (l : List (Int × String)) :
    ∀ p q : Int × String, foldBest (some p) l = some q →
      (q = p ∧ ∀ x ∈ l, p.1 ≤ x.1) ∨
      (∃ l₁ l₂, l = l₁ ++ q :: l₂ ∧ q.1 < p.1 ∧ (∀ x ∈ l₁, q.1 < x.1) ∧
        ∀ x ∈ l₂, q.1 ≤ x.1) := by
  induction l with
  | nil =>
    intro p q h
    left
    refine ⟨?_, by simp⟩
    have h' : some p = some q := h
    exact (Option.some.injEq _ _ ▸ h').symm
  | cons a l ih =>
    intro p q h
    obtain ⟨r0, n0⟩ := p
    obtain ⟨ra, na⟩ := a
    rw [foldBest_cons] at h
    simp only [chooseBest] at h
    by_cases hc : ra < r0
    · rw [if_pos hc] at h
      rcases ih (ra, na) q h with ⟨rfl, hall⟩ | ⟨l₁, l₂, heq, hlt, h₁, h₂⟩
      · right
        exact ⟨[], l, rfl, hc, by simp, hall⟩
      · right
        refine ⟨(ra, na) :: l₁, l₂, by rw [heq, List.cons_append], lt_trans hlt hc, ?_, h₂⟩
        intro x hx
        rcases List.mem_cons.mp hx with rfl | hx'
        · exact hlt
        · exact h₁ x hx'
    · rw [if_neg hc] at h
      rcases ih (r0, n0) q h with ⟨rfl, hall⟩ | ⟨l₁, l₂, heq, hlt, h₁, h₂⟩
      · left
        refine ⟨rfl, ?_⟩
        intro x hx
        rcases List.mem_cons.mp hx with rfl | hx'
        · exact le_of_not_lt hc
        · exact hall x hx'
      · right
        refine ⟨(ra, na) :: l₁, l₂, by rw [heq, List.cons_append], hlt, ?_, h₂⟩
        intro x hx
        rcases List.mem_cons.mp hx with rfl | hx'
        · exact lt_of_lt_of_le hlt (le_of_not_lt hc)
        · exact h₁ x hx'

/-- `firstMin` returns the earliest minimum-rank candidate: everything
before it has strictly larger rank, everything after it no smaller
rank. -/
theorem firstMin_decomp (l : List (Int × String)) (q : Int × String)
    (h : firstMin l = some q) :
    ∃ l₁ l₂, l = l₁ ++ q :: l₂ ∧ (∀ x ∈ l₁, q.1 < x.1) ∧
      ∀ x ∈ l₂, q.1 ≤ x.1 := by
  match l with
  | [] => exact absurd h (by simp [firstMin, foldBest])
  | a :: l =>
    have h' : foldBest (some a) l = some q := h
    rcases foldBest_decomp l a q h' with ⟨rfl, hall⟩ | ⟨l₁, l₂, heq, hlt, h₁, h₂⟩
    · exact ⟨[], l, rfl, by simp, hall⟩
    · refine ⟨a :: l₁, l₂, by rw [heq, List.cons_append], ?_, h₂⟩
      intro x hx
      rcases List.mem_cons.mp hx with rfl | hx'
      · exact hlt
      · exact h₁ x hx'

/-- C4: under a successful run of the candidate selector, the selected
names contain, for every organism, exactly the single leaf returned by
`firstMin` over that organism's preorder candidate list — so exactly one
name per organism with at least one ranked-candidate leaf, none for the
others — and `firstMin` picks the first candidate of minimum rank in
preorder: strictly larger ranks before it, no smaller rank after it. -/
theorem c4_best_candidate_selection (t : PTree) (out : List String)
    (h : get_best_candidates t = some out) (org : String) :
    out.filter (fun nm => orgOf nm == org) =
      ((firstMin (candsOf (leafNames t) org)).map Prod.snd).toList ∧
    ∀ r n, firstMin (candsOf (leafNames t) org) = some (r, n) →
      ∃ l₁ l₂, candsOf (leafNames t) org = l₁ ++ (r, n) :: l₂ ∧
        (∀ x ∈ l₁, r < x.1) ∧ ∀ x ∈ l₂, r ≤ x.1 := by
  obtain ⟨entries, hbf, rfl⟩ :
      ∃ entries, bestFold [] (leafNames t) = some entries ∧
        out = entries.map (fun e => e.2.2) := by
    rw [get_best_candidates] at h
    cases hbf : bestFold [] (leafNames t) with
    | none =>
      rw [hbf] at h
      exact absurd h (by simp)
    | some entries =>
      rw [hbf] at h
      exact ⟨entries, rfl, by simpa using h.symm⟩
  constructor
  · have hlook : lookupOrg entries org = firstMin (candsOf (leafNames t) org) :=
      bestFold_lookup (leafNames t) [] entries hbf org
    rw [filter_map_orgs _ _ (bestFold_wf _ _ _ hbf (by simp)),
      filter_key_eq_lookup _ _ (bestFold_keys_nodup _ _ _ hbf (by simp)), hlook]
    cases hfm : firstMin (candsOf (leafNames t) org) with
    | none => rfl
    | some p =>
      obtain ⟨r, n⟩ := p
      rfl
  · intro r n hfm
    exact firstMin_decomp _ _ hfm

/-- C4 witness: on `exT4`, organism `A` has two ranked candidates of
ranks 1 and 0; the selector keeps exactly `A_y_q_r05_t`. -/
theorem c4_witness :
    (["A_y_q_r05_t"].filter (fun nm => orgOf nm == "A")) =
      ((firstMin (candsOf (leafNames exT4) "A")).map Prod.snd).toList ∧
    ∀ r n, firstMin (candsOf (leafNames exT4) "A") = some (r, n) →
      ∃ l₁ l₂, candsOf (leafNames exT4) "A" = l₁ ++ (r, n) :: l₂ ∧
        (∀ x ∈ l₁, r < x.1) ∧ ∀ x ∈ l₂, r ≤ x.1 :=
  c4_best_candidate_selection exT4 ["A_y_q_r05_t"] (by decide) "A"

end Forest
